import Mathlib

/-!
Verification of the waste-management report system's AI and analytics
services.  The Python services are shallowly embedded: machine floats
become exact rationals, the database rows consumed by an operation become
explicit list arguments, and the pretrained sentence encoder (an external
collaborator) becomes a function argument producing the per-category
similarity scores.  Statistical tests that the source states with a square
root (`std_dev = variance ** 0.5`) are embedded by the equivalent
square-free comparison, with a bridging lemma relating the embedded test
to the real-valued formula.
-/

namespace WasteReport

/-! ### Python `round(x, d)`: round half to even, then scale back -/

/-- Round a rational to the nearest integer, ties to the even integer
(the rounding Python's built-in `round` applies). -/
def roundHalfEven (q : ℚ) : ℤ :=
  let f : ℤ := ⌊q⌋
  let r : ℚ := q - f
  if r < 1/2 then f
  else if 1/2 < r then f + 1
  else if f % 2 = 0 then f else f + 1

/-- Python `round(q, d)` on exact rationals. -/
def pyRound (d : ℕ) (q : ℚ) : ℚ := (roundHalfEven (q * 10 ^ d) : ℚ) / 10 ^ d





def charsStartWith : List Char → List Char → Bool
  | _, [] => true
  | [], _ :: _ => false
  | c :: cs, p :: ps => c == p && charsStartWith cs ps

/-- Whether `pat` occurs contiguously in the list (Python `pat in s`). -/
def charsContain (pat : List Char) : List Char → Bool
  | [] => pat.isEmpty
  | c :: cs => charsStartWith (c :: cs) pat || charsContain pat cs

/-- Python `sub in s` on strings. -/
def strContains (s sub : String) : Bool := charsContain sub.data s.data

/-- `str.lower()` (identical to `String.toLower`, written over the char
list so that concrete instances reduce). -/
def strToLower (s : String) : String := String.mk (s.data.map Char.toLower)

/-- Maximal whitespace-free runs seen so far; the flag records whether the
scan stands inside a word. -/
def wordCountAux : List Char → Bool → ℕ
  | [], _ => 0
  | c :: cs, inWord =>
    if c.isWhitespace then wordCountAux cs false
    else (if inWord then 0 else 1) + wordCountAux cs true

/-- Python `len(k.split())`: number of whitespace-separated words. -/
def wordCount (k : String) : ℕ := wordCountAux k.data false

/-! ### `AIService.WASTE_CATEGORIES` (the keyword fallback table) -/

def WASTE_CATEGORIES : List (String × List String) := [
  ("plastic", ["plastic", "bottle", "bag", "packaging", "container", "wrapper",
    "polythene", "polyethylene", "pet", "hdpe", "pvc", "straw", "cup", "lid", "film"]),
  ("organic", ["food", "organic", "kitchen", "vegetable", "fruit", "compost",
    "biodegradable", "garden", "plant", "waste", "banana", "apple", "leftover",
    "spoiled", "rotten"]),
  ("paper", ["paper", "cardboard", "newspaper", "magazine", "box", "carton",
    "tissue", "document", "book", "notebook", "envelope"]),
  ("glass", ["glass", "bottle", "jar", "window", "broken glass", "mirror",
    "wine bottle", "beer bottle", "glassware"]),
  ("metal", ["metal", "can", "aluminum", "steel", "tin", "iron", "copper",
    "foil", "wire", "scrap metal", "battery"]),
  ("electronic", ["electronic", "e-waste", "computer", "phone", "mobile", "laptop",
    "television", "tv", "monitor", "cable", "charger", "battery", "appliance",
    "device", "gadget"]),
  ("hazardous", ["chemical", "hazardous", "toxic", "paint", "oil", "solvent",
    "battery", "pesticide", "medicine", "pharmaceutical", "dangerous",
    "flammable", "corrosive"]),
  ("textile", ["clothing", "fabric", "textile", "cloth", "clothes", "shirt",
    "pants", "dress", "shoes", "leather", "rag"]),
  ("construction", ["construction", "demolition", "concrete", "brick", "wood",
    "debris", "rubble", "tile", "drywall", "lumber"]),
  ("mixed", ["mixed", "general", "household", "municipal", "various",
    "assorted", "multiple", "diverse"])]

/-- The keyword-scoring loop shared by `classify_waste_type` and
`_classify_by_keywords_only`: per category, count substring matches of its
keywords in the lower-cased description, sum the matched keywords' word
counts, normalize by the keyword-list length; categories with zero matches
are left out (insertion order of the Python dict = table order). -/
def keywordScores (description : String) : List (String × ℚ) :=
  WASTE_CATEGORIES.filterMap (fun p =>
    let matched := p.2.filter (fun k => strContains (strToLower description) k)
    if matched.length = 0 then none
    else some (p.1, ((matched.map wordCount).sum : ℚ) / (p.2.length : ℚ)))

/-- Python `max(items, key=lambda x: x[1])` on an association list: the
first pair attaining the maximal value (`max` keeps the earlier item on
ties).  The default is never reached on the nonempty lists it is applied
to. -/
def pyMax : List (String × ℚ) → String × ℚ
  | [] => ("unclassified", 0)
  | x :: xs => xs.foldl (fun b y => if b.2 < y.2 then y else b) x

/-! ### `AIService.classify_waste_type` and its keyword-only fallback -/

/-- The per-category cosine-similarity scores (`semantic_scores`): the
encoder and the cosine kernel are external collaborators, so the score a
category's reference embedding obtains against the description's embedding
enters the model as the function `sem`. -/
def semanticScores (sem : String → ℚ) : List (String × ℚ) :=
  WASTE_CATEGORIES.map (fun p => (p.1, sem p.1))

/-- `AIService.classify_waste_type`, given the per-category semantic
similarity scores of the description.  Mirrors the three-way arbitration
of the source: trust the semantic winner at `semantic_confidence ≥ 0.50`
(boosted by `0.2` times the winner's keyword score), else use the best
keyword category (boosted by `0.3` times the semantic confidence exactly
when the two winners agree), else pass the semantic result through. -/
def classify_waste_type (sem : String → ℚ) (description : String) : String × ℚ :=
  let best := pyMax (semanticScores sem)
  let ks := keywordScores description
  if 1/2 ≤ best.2 then
    (best.1, pyRound 2 (min (best.2 + ((ks.lookup best.1).getD 0) * (2/10)) 1))
  else if ks.isEmpty then
    (best.1, pyRound 2 best.2)
  else
    let bk := pyMax ks
    let kc := min (bk.2 * 2) 1
    (bk.1, pyRound 2 (if best.1 = bk.1 then min (kc + best.2 * (3/10)) 1 else kc))

/-- `AIService._classify_by_keywords_only`. -/
def classify_by_keywords_only (description : String) : String × ℚ :=
  let scores := keywordScores description
  if scores.isEmpty then ("unclassified", 0)
  else
    let best := pyMax scores
    (best.1, pyRound 2 (min (best.2 * 2) 1))

/-- `classify_waste_type` with its surrounding `try`/`except`: an encoder
failure (the `Except.error` case) is caught and answered by the
keyword-only fallback instead of being propagated. -/
def classify_waste_type_total (enc : Except Unit (String → ℚ))
    (description : String) : String × ℚ :=
  match enc with
  | Except.ok sem => classify_waste_type sem description
  | Except.error _ => classify_by_keywords_only description

/-! ### Python's stable `sort(key=..., reverse=True)`

Python's sort is stable also under `reverse=True`: elements with equal
keys keep their original relative order.  That behaviour is exactly
insertion at the first position whose key is `≤` the inserted key, folding
from the right. -/

section SortDesc

variable {α : Type} {β : Type} [LinearOrder β]

/-- Insert `x` before the first element whose key is `≤ k x`. -/
def insertDesc (k : α → β) (x : α) : List α → List α
  | [] => [x]
  | y :: t => if k y ≤ k x then x :: y :: t else y :: insertDesc k x t

/-- Stable sort, descending in the key `k`. -/
def sortDesc (k : α → β) : List α → List α
  | [] => []
  | x :: xs => insertDesc k x (sortDesc k xs)

end SortDesc


/-! ### `AIService.find_similar_incidents`

The corpus fetched from storage becomes an explicit list of incidents; the
cosine-similarity kernel applied to the fixed query embedding becomes the
function `sim` scoring a candidate's embedding. -/

/-- The slice of an `Incident` row that `find_similar_incidents` reads. -/
structure Incident where
  id : ℕ
  embedding : Option (List ℚ)
deriving DecidableEq, Repr

/-- `Settings.SIMILARITY_THRESHOLD` (global config default). -/
def SIMILARITY_THRESHOLD : ℚ := 3/4

/-- The candidate loop of `find_similar_incidents` before the threshold
test: rows with `id` different from the current incident and a non-null,
non-empty embedding, each paired with its similarity score. -/
def scored_candidates (sim : List ℚ → ℚ) (corpus : List Incident)
    (current_incident_id : ℕ) : List (Incident × ℚ) :=
  (corpus.filter
      (fun inc => decide (inc.id ≠ current_incident_id) && inc.embedding.isSome)).filterMap
    (fun inc => match inc.embedding with
      | some e => if 0 < e.length then some (inc, sim e) else none
      | none => none)

/-- The scored candidates passing the threshold test (the `similarities`
list of the source, in corpus order). -/
def qualifying (sim : List ℚ → ℚ) (corpus : List Incident)
    (current_incident_id : ℕ) (t : ℚ) : List (Incident × ℚ) :=
  (scored_candidates sim corpus current_incident_id).filter (fun p => decide (t ≤ p.2))

/-- `AIService.find_similar_incidents`: keep the scored candidates at or
above the threshold (the config default when none is supplied), sort by
score descending (Python's stable sort) and return the first `limit`
incidents. -/
def find_similar_incidents (sim : List ℚ → ℚ) (corpus : List Incident)
    (current_incident_id : ℕ) (threshold : Option ℚ) (limit : ℕ) : List Incident :=
  let t := threshold.getD SIMILARITY_THRESHOLD
  ((sortDesc Prod.snd (qualifying sim corpus current_incident_id t)).take limit).map Prod.fst

/-! ### `AIService.extract_keywords`

`nltk.word_tokenize` and the nltk stopword list are external resources:
the token list of the lower-cased description and the stopword set enter
the model as arguments. -/

/-- Python `str.isalpha`: non-empty and every character alphabetic. -/
def str_isalpha (w : String) : Bool := decide (w.length ≠ 0) && w.data.all Char.isAlpha

/-- The token filter of `extract_keywords`: alphabetic, not a stopword,
longer than 2 characters. -/
def keepToken (stop : List String) (w : String) : Bool :=
  str_isalpha w && decide (w ∉ stop) && decide (2 < w.length)

/-- One step of `word_freq[word] = word_freq.get(word, 0) + 1` on the
insertion-ordered dict, viewed as an association list. -/
def bump : List (String × ℕ) → String → List (String × ℕ)
  | [], w => [(w, 1)]
  | (x, n) :: t, w => if x = w then (x, n + 1) :: t else (x, n) :: bump t w

/-- The `word_freq` dict after the counting loop: keys in first-seen
order, values the occurrence counts. -/
def word_freq (l : List String) : List (String × ℕ) := l.foldl bump []

/-- `AIService.extract_keywords` on the tokens of the lower-cased
description: filter, count, sort by frequency descending (stable, so ties
keep first-seen order) and take the first `top_n` words. -/
def extract_keywords (tokens : List String) (stop : List String) (top_n : ℕ) : List String :=
  let kept := tokens.filter (keepToken stop)
  ((sortDesc Prod.snd (word_freq kept)).take top_n).map Prod.fst

/-- The distinct elements of a list in order of first occurrence (the key
sequence of an insertion-ordered counting dict). -/
def firstOccs : List String → List String
  | [] => []
  | w :: t => w :: firstOccs (t.filter (fun x => x ≠ w))
termination_by l => l.length
decreasing_by
  simp only [List.length_cons]
  exact Nat.lt_succ_of_le (List.length_filter_le _ t)

/-- Index of the first occurrence of `w` (length of the list when `w` is
absent); the tie-break order of the frequency sort. -/
def firstIdx (w : String) : List String → ℕ
  | [] => 0
  | x :: t => if x = w then 0 else firstIdx w t + 1

/-! ### `AnalyticsService.analyze_trends` (per-category classification) -/

inductive Trend where
  | rising
  | falling
  | stable
  | new
deriving DecidableEq, Repr

/-- A per-category trend record (`trend_item` in the source; the `new`
records carry no percentage and no severity). -/
structure TrendItem where
  waste_type : String
  current_count : ℕ
  previous_count : ℕ
  change_percentage : Option ℚ
  change_absolute : ℤ
  trend : Trend
  severity : Option String
deriving DecidableEq, Repr

/-- The loop body of `analyze_trends` for one waste type, given its counts
in the current and previous windows (the two aggregate queries are storage
reads).  A type with `previous = 0` and `current = 0` produces nothing;
the percentage is stored rounded to 1 decimal but the 20/50 cutoffs are
applied to the exact value. -/
def classify_trend (waste_type : String) (current previous : ℕ) : Option TrendItem :=
  if previous = 0 ∧ 0 < current then
    some ⟨waste_type, current, previous, none, (current : ℤ) - previous, Trend.new, none⟩
  else if 0 < previous then
    let change : ℚ := ((current : ℚ) - (previous : ℚ)) / (previous : ℚ) * 100
    if 20 < change then
      some ⟨waste_type, current, previous, some (pyRound 1 change),
        (current : ℤ) - previous, Trend.rising,
        some (if 50 < change then "high" else "medium")⟩
    else if change < -20 then
      some ⟨waste_type, current, previous, some (pyRound 1 change),
        (current : ℤ) - previous, Trend.falling,
        some (if change < -50 then "high" else "medium")⟩
    else
      some ⟨waste_type, current, previous, some (pyRound 1 change),
        (current : ℤ) - previous, Trend.stable, none⟩
  else none

/-! ### `AnalyticsService.detect_anomalies` -/

structure Anomaly where
  location : String
  count : ℕ
  mean : ℚ
  threshold : ℚ
  severity : String
deriving DecidableEq, Repr

/-- Arithmetic mean of the per-location counts. -/
def anomalyMean (location_counts : List (String × ℕ)) : ℚ :=
  (location_counts.map (fun p => (p.2 : ℚ))).sum / (location_counts.length : ℚ)

/-- `AnalyticsService.detect_anomalies` on the per-location counts fetched
by its grouping query: a location is anomalous when its count is strictly
above `mean * threshold_multiplier`, with severity `high` when it is
strictly above 1.5 times that threshold. -/
def detect_anomalies (location_counts : List (String × ℕ))
    (threshold_multiplier : ℚ) : List Anomaly :=
  if location_counts.isEmpty then [] else
  let mean_count := anomalyMean location_counts
  let threshold := mean_count * threshold_multiplier
  location_counts.filterMap (fun p =>
    if threshold < (p.2 : ℚ) then
      some ⟨p.1, p.2, pyRound 2 mean_count, pyRound 2 threshold,
        if threshold * (3/2) < (p.2 : ℚ) then "high" else "medium"⟩
    else none)

/-! ### `AnalyticsService._detect_daily_spikes`

The source compares `count > mean + k * std_dev` with
`std_dev = variance ** 0.5`.  A square root has no exact rational value,
so the embedded test is the equivalent square-free comparison
`mean < count ∧ k² · variance < (count − mean)²`;
`spikeExceeds_iff_real` proves it equal to the source's real-valued
formula. -/

/-- A spike record (the source's dict also repeats the rounded mean and
threshold for display; the threshold contains the square root, so the
embedding keeps the decision-relevant fields). -/
structure Spike where
  date : String
  count : ℕ
  severity : String
deriving DecidableEq, Repr

/-- Square-free embedding of `count > mean + k * sqrt variance`. -/
def spikeExceeds (count : ℕ) (mean variance kk : ℚ) : Bool :=
  decide (mean < (count : ℚ)) && decide (kk ^ 2 * variance < ((count : ℚ) - mean) ^ 2)

/-- Mean of the daily counts. -/
def dailyMean (daily_counts : List (String × ℕ)) : ℚ :=
  (daily_counts.map (fun p => (p.2 : ℚ))).sum / (daily_counts.length : ℚ)

/-- Population variance of the daily counts. -/
def dailyVariance (daily_counts : List (String × ℕ)) : ℚ :=
  (daily_counts.map (fun p => ((p.2 : ℚ) - dailyMean daily_counts) ^ 2)).sum
    / (daily_counts.length : ℚ)

/-- `AnalyticsService._detect_daily_spikes` on the per-day counts of its
grouping query: below 3 days nothing is reported; otherwise a day is a
spike when its count exceeds `mean + 2.5 · stddev`, with severity `high`
when it exceeds `mean + 4 · stddev`. -/
def detect_daily_spikes (daily_counts : List (String × ℕ)) : List Spike :=
  if daily_counts.length < 3 then [] else
  let mean_count := dailyMean daily_counts
  let variance := dailyVariance daily_counts
  daily_counts.filterMap (fun p =>
    if spikeExceeds p.2 mean_count variance (5/2) then
      some ⟨p.1, p.2, if spikeExceeds p.2 mean_count variance 4 then "high" else "medium"⟩
    else none)

/-- The spec's worked spike example: seven daily counts with a single
high day. -/
def exampleWeek : List (String × ℕ) :=
  [("d1", 10), ("d2", 10), ("d3", 10), ("d4", 10), ("d5", 10), ("d6", 10), ("d7", 50)]

/-- Eight daily counts whose last day does exceed `mean + 2.5 · stddev`. -/
def exampleEight : List (String × ℕ) :=
  [("d1", 10), ("d2", 10), ("d3", 10), ("d4", 10), ("d5", 10), ("d6", 10), ("d7", 10),
   ("d8", 60)]




/-! ## Lemmas -/

theorem roundHalfEven_ge {m : ℤ} {q : ℚ} (h : (m : ℚ) ≤ q) : m ≤ roundHalfEven q := by
  have hf : m ≤ ⌊q⌋ := Int.le_floor.mpr h
  unfold roundHalfEven
  dsimp only
  split
  · exact hf
  · split
    · omega
    · split
      · exact hf
      · omega

theorem roundHalfEven_le {n : ℤ} {q : ℚ} (h : q ≤ (n : ℚ)) : roundHalfEven q ≤ n := by
  have hf : ⌊q⌋ ≤ n := by
    have := Int.floor_le_floor h
    simpa using this
  have hstep : (1:ℚ)/2 ≤ q - (⌊q⌋ : ℚ) → ⌊q⌋ + 1 ≤ n := by
    intro hr
    have hlt : (⌊q⌋ : ℚ) < q := by linarith
    have : (⌊q⌋ : ℚ) < (n : ℚ) := lt_of_lt_of_le hlt h
    have : ⌊q⌋ < n := by exact_mod_cast this
    omega
  unfold roundHalfEven
  dsimp only
  split
  · exact hf
  · rename_i h1
    split
    · rename_i h2
      exact hstep (by linarith)
    · split
      · exact hf
      · exact hstep (by linarith)

theorem pyRound_ge {d : ℕ} {m : ℤ} {q : ℚ} (h : (m : ℚ) ≤ q) : (m : ℚ) ≤ pyRound d q := by
  have hpow : (0:ℚ) < 10 ^ d := by positivity
  have hm : ((m * 10 ^ d : ℤ) : ℚ) ≤ q * 10 ^ d := by
    push_cast
    exact mul_le_mul_of_nonneg_right h (le_of_lt hpow)
  have := roundHalfEven_ge hm
  have hcast : ((m * 10 ^ d : ℤ) : ℚ) ≤ (roundHalfEven (q * 10 ^ d) : ℚ) := by exact_mod_cast this
  rw [pyRound, le_div_iff₀ hpow]
  calc (m : ℚ) * 10 ^ d = ((m * 10 ^ d : ℤ) : ℚ) := by push_cast; ring
    _ ≤ _ := hcast

theorem pyRound_le {d : ℕ} {n : ℤ} {q : ℚ} (h : q ≤ (n : ℚ)) : pyRound d q ≤ (n : ℚ) := by
  have hpow : (0:ℚ) < 10 ^ d := by positivity
  have hn : q * 10 ^ d ≤ ((n * 10 ^ d : ℤ) : ℚ) := by
    push_cast
    exact mul_le_mul_of_nonneg_right h (le_of_lt hpow)
  have := roundHalfEven_le hn
  have hcast : (roundHalfEven (q * 10 ^ d) : ℚ) ≤ ((n * 10 ^ d : ℤ) : ℚ) := by exact_mod_cast this
  rw [pyRound, div_le_iff₀ hpow]
  calc (roundHalfEven (q * 10 ^ d) : ℚ) ≤ ((n * 10 ^ d : ℤ) : ℚ) := hcast
    _ = (n : ℚ) * 10 ^ d := by push_cast; ring

/-! ### Python `sub in s` (substring test) and `len(s.split())` -/

/-- Whether the second list is an initial segment of the first. -/

theorem foldl_pyMax_mem (xs : List (String × ℚ)) (b : String × ℚ) :
    xs.foldl (fun b y => if b.2 < y.2 then y else b) b = b ∨
      xs.foldl (fun b y => if b.2 < y.2 then y else b) b ∈ xs := by
  induction xs generalizing b with
  | nil => simp
  | cons y ys ih =>
    simp only [List.foldl_cons]
    rcases ih (if b.2 < y.2 then y else b) with h | h
    · rw [h]
      split
      · right; simp
      · left; rfl
    · right; exact List.mem_cons_of_mem _ h

theorem foldl_pyMax_le_init (xs : List (String × ℚ)) (b : String × ℚ) :
    b.2 ≤ (xs.foldl (fun b y => if b.2 < y.2 then y else b) b).2 := by
  induction xs generalizing b with
  | nil => simp
  | cons y ys ih =>
    simp only [List.foldl_cons]
    refine le_trans ?_ (ih (if b.2 < y.2 then y else b))
    split
    · rename_i h; exact le_of_lt h
    · exact le_refl _

theorem foldl_pyMax_le (xs : List (String × ℚ)) (b : String × ℚ) :
    ∀ p ∈ xs, p.2 ≤ (xs.foldl (fun b y => if b.2 < y.2 then y else b) b).2 := by
  induction xs generalizing b with
  | nil => simp
  | cons y ys ih =>
    intro p hp
    simp only [List.foldl_cons]
    rcases List.mem_cons.mp hp with h | h
    · subst h
      refine le_trans ?_ (foldl_pyMax_le_init ys (if b.2 < p.2 then p else b))
      split
      · exact le_refl _
      · rename_i h; exact le_of_not_lt h
    · exact ih _ p h

/-- `pyMax` returns an element of a nonempty list. -/

theorem pyMax_mem {l : List (String × ℚ)} (h : l ≠ []) : pyMax l ∈ l := by
  cases l with
  | nil => exact absurd rfl h
  | cons x xs =>
    rw [pyMax]
    rcases foldl_pyMax_mem xs x with h' | h'
    · rw [h']; simp
    · exact List.mem_cons_of_mem _ h'

/-- `pyMax` dominates every value in the list. -/

theorem pyMax_le {l : List (String × ℚ)} : ∀ p ∈ l, p.2 ≤ (pyMax l).2 := by
  cases l with
  | nil => simp
  | cons x xs =>
    intro p hp
    rw [pyMax]
    rcases List.mem_cons.mp hp with h | h
    · subst h; exact foldl_pyMax_le_init xs p
    · exact foldl_pyMax_le xs x p h

section SortDescLemmas

variable {α : Type} {β : Type} [LinearOrder β]

@[simp] theorem sortDesc_nil (k : α → β) : sortDesc k ([] : List α) = [] := rfl

@[simp] theorem sortDesc_cons (k : α → β) (a : α) (l : List α) :
    sortDesc k (a :: l) = insertDesc k a (sortDesc k l) := rfl

theorem insertDesc_perm (k : α → β) (x : α) (l : List α) :
    List.Perm (insertDesc k x l) (x :: l) := by
  induction l with
  | nil => rfl
  | cons y t ih =>
    rw [insertDesc]
    split
    · rfl
    · exact (ih.cons y).trans (List.Perm.swap x y t)

theorem sortDesc_perm (k : α → β) (l : List α) : List.Perm (sortDesc k l) l := by
  induction l with
  | nil => rfl
  | cons x xs ih => exact (insertDesc_perm k x (sortDesc k xs)).trans (ih.cons x)

theorem mem_sortDesc {k : α → β} {a : α} {l : List α} :
    a ∈ sortDesc k l ↔ a ∈ l :=
  (sortDesc_perm k l).mem_iff

theorem length_sortDesc (k : α → β) (l : List α) :
    (sortDesc k l).length = l.length :=
  (sortDesc_perm k l).length_eq

theorem insertDesc_pairwise {k : α → β} {R : α → α → Prop} {x : α} {l : List α}
    (hl : l.Pairwise (fun a b => k b < k a ∨ (k a = k b ∧ R a b)))
    (hx : ∀ b ∈ l, R x b) :
    (insertDesc k x l).Pairwise (fun a b => k b < k a ∨ (k a = k b ∧ R a b)) := by
  induction l with
  | nil => simp [insertDesc]
  | cons y t ih =>
    have hyt := List.pairwise_cons.mp hl
    rw [insertDesc]
    split
    · rename_i hyx
      refine List.Pairwise.cons ?_ hl
      intro b hb
      have hbx : k b ≤ k x := by
        rcases List.mem_cons.mp hb with h | h
        · subst h; exact hyx
        · rcases hyt.1 b h with h' | h'
          · exact le_trans (le_of_lt h') hyx
          · exact le_trans (le_of_eq h'.1.symm) hyx
      rcases lt_or_eq_of_le hbx with h' | h'
      · exact Or.inl h'
      · exact Or.inr ⟨h'.symm, hx b hb⟩
    · rename_i hyx
      refine List.Pairwise.cons ?_ (ih hyt.2 (fun b hb => hx b (List.mem_cons_of_mem _ hb)))
      intro b hb
      rcases List.mem_cons.mp ((insertDesc_perm k x t).mem_iff.mp hb) with h | h
      · subst h
        exact Or.inl (lt_of_not_le hyx)
      · exact hyt.1 b h

/-- Stability: sorting descending by key turns any pairwise relation `R` of
the input (for instance "comes earlier in the original list") into the
lexicographic combination "strictly larger key, or equal keys and `R`". -/
theorem sortDesc_pairwise {k : α → β} {R : α → α → Prop} {l : List α}
    (hl : l.Pairwise R) :
    (sortDesc k l).Pairwise (fun a b => k b < k a ∨ (k a = k b ∧ R a b)) := by
  induction l with
  | nil => simp
  | cons x xs ih =>
    have hx := List.pairwise_cons.mp hl
    rw [sortDesc_cons]
    exact insertDesc_pairwise (ih hx.2) (fun b hb => hx.1 b (mem_sortDesc.mp hb))

/-- The output of `sortDesc` is descending in the key. -/
theorem sortDesc_sorted (k : α → β) (l : List α) :
    (sortDesc k l).Pairwise (fun a b => k b ≤ k a) := by
  have htriv : l.Pairwise (fun _ _ => True) := by
    induction l with
    | nil => simp
    | cons a t ih => exact List.Pairwise.cons (fun _ _ => trivial) ih
  refine (sortDesc_pairwise htriv).imp ?_
  intro a b h
  rcases h with h | h
  · exact le_of_lt h
  · exact le_of_eq h.1.symm

theorem insertDesc_append_of_le {k : α → β} {x : α} {S M : List α}
    (hM : ∀ b ∈ M, k b ≤ k x) :
    insertDesc k x (S ++ M) = insertDesc k x S ++ M := by
  induction S with
  | nil =>
    cases M with
    | nil => rfl
    | cons b bs =>
      have hb : k b ≤ k x := hM b (List.mem_cons_self b bs)
      simp [insertDesc, hb]
  | cons y ys ih =>
    by_cases h : k y ≤ k x
    · simp [insertDesc, h]
    · simp [insertDesc, h, ih]

theorem insertDesc_append_of_lt {k : α → β} {x : α} {S M : List α}
    (hS : ∀ b ∈ S, k x < k b) :
    insertDesc k x (S ++ M) = S ++ insertDesc k x M := by
  induction S with
  | nil => rfl
  | cons y ys ih =>
    have hy : ¬ k y ≤ k x := not_le.mpr (hS y (List.mem_cons_self y ys))
    have htail : ∀ b ∈ ys, k x < k b := fun b hb => hS b (List.mem_cons_of_mem _ hb)
    simp [insertDesc, hy, ih htail]

/-- Lowering the admission predicate from `q` to `p` only appends the
newly admitted (strictly smaller-keyed) elements after the old sorted
output. -/
theorem sortDesc_filter_split {k : α → β} (p q : α → Bool) (l : List α)
    (hpq : ∀ x, q x = true → p x = true)
    (hsep : ∀ x y, q x = true → p y = true → q y = false → k y < k x) :
    sortDesc k (l.filter p) =
      sortDesc k (l.filter q) ++ sortDesc k (l.filter (fun x => p x && !q x)) := by
  induction l with
  | nil => rfl
  | cons a t ih =>
    by_cases hpa : p a = true
    · by_cases hqa : q a = true
      · rw [List.filter_cons_of_pos hpa, List.filter_cons_of_pos hqa,
          List.filter_cons_of_neg (by simp [hqa]), sortDesc_cons, sortDesc_cons, ih]
        apply insertDesc_append_of_le
        intro b hb
        have hbmem := mem_sortDesc.mp hb
        have hb2 := (List.mem_filter.mp hbmem).2
        have hpb : p b = true := by
          cases hp' : p b
          · rw [hp'] at hb2; simp at hb2
          · rfl
        have hqb : q b = false := by
          cases hq' : q b
          · rfl
          · rw [hq'] at hb2; simp at hb2
        exact le_of_lt (hsep a b hqa hpb hqb)
      · have hqa' : q a = false := by simpa using hqa
        rw [List.filter_cons_of_pos hpa, List.filter_cons_of_neg (by simp [hqa']),
          List.filter_cons_of_pos (by simp [hpa, hqa']), sortDesc_cons, sortDesc_cons, ih]
        apply insertDesc_append_of_lt
        intro b hb
        have hbmem := mem_sortDesc.mp hb
        have hqb : q b = true := (List.mem_filter.mp hbmem).2
        exact hsep b a hqb hpa hqa'
    · have hqa : q a = false := by
        rcases Bool.eq_false_or_eq_true (q a) with h | h
        · exact absurd (hpq a h) hpa
        · exact h
      rw [List.filter_cons_of_neg (by simpa using hpa),
        List.filter_cons_of_neg (by simp [hqa]),
        List.filter_cons_of_neg (by simp [hpa]), ih]

end SortDescLemmas

/-- The square-free spike test agrees with the source's
`count > mean + k * sqrt variance` over the reals. -/
theorem spikeExceeds_iff_real {count : ℕ} {mean variance kk : ℚ}
    (hv : 0 ≤ variance) (hk : 0 < kk) :
    spikeExceeds count mean variance kk = true ↔
      (mean : ℝ) + (kk : ℝ) * Real.sqrt (variance : ℝ) < (count : ℝ) := by
  have hv' : (0 : ℝ) ≤ (variance : ℝ) := by exact_mod_cast hv
  have hk' : (0 : ℝ) < (kk : ℝ) := by exact_mod_cast hk
  have hnn : 0 ≤ (kk : ℝ) * Real.sqrt (variance : ℝ) :=
    mul_nonneg (le_of_lt hk') (Real.sqrt_nonneg _)
  rw [spikeExceeds]
  simp only [Bool.and_eq_true, decide_eq_true_eq]
  constructor
  · rintro ⟨h1, h2⟩
    have h1' : (mean : ℝ) < (count : ℝ) := by exact_mod_cast h1
    have h2' : (kk : ℝ) ^ 2 * (variance : ℝ) < ((count : ℝ) - mean) ^ 2 := by exact_mod_cast h2
    have hsq : ((kk : ℝ) * Real.sqrt (variance : ℝ)) ^ 2 < ((count : ℝ) - mean) ^ 2 := by
      rw [mul_pow, Real.sq_sqrt hv']
      exact h2'
    have hs : (kk : ℝ) * Real.sqrt (variance : ℝ) < (count : ℝ) - mean :=
      lt_of_pow_lt_pow_left₀ 2 (by linarith) hsq
    linarith
  · intro h
    have hcm : (mean : ℝ) < (count : ℝ) := by linarith
    refine ⟨by exact_mod_cast hcm, ?_⟩
    have hs : (kk : ℝ) * Real.sqrt (variance : ℝ) < (count : ℝ) - mean := by linarith
    have hsq : ((kk : ℝ) * Real.sqrt (variance : ℝ)) ^ 2 < ((count : ℝ) - mean) ^ 2 :=
      pow_lt_pow_left₀ hs hnn (by norm_num)
    rw [mul_pow, Real.sq_sqrt hv'] at hsq
    exact_mod_cast hsq

/-- The population variance is nonnegative. -/

theorem dailyVariance_nonneg (daily_counts : List (String × ℕ)) :
    0 ≤ dailyVariance daily_counts := by
  rw [dailyVariance]
  apply div_nonneg
  · apply List.sum_nonneg
    intro x hx
    rcases List.mem_map.mp hx with ⟨p, _, hp⟩
    rw [← hp]
    positivity
  · positivity


/-! ### Facts about the keyword table and keyword scores -/

/-- Every keyword of the table is at least one word long. -/
theorem wastecat_wordCount_pos : ∀ p ∈ WASTE_CATEGORIES, ∀ k ∈ p.2, 1 ≤ wordCount k := by
  decide

theorem semanticScores_ne_nil (sem : String → ℚ) : semanticScores sem ≠ [] := by
  simp [semanticScores, WASTE_CATEGORIES]

theorem semanticScores_bounds {sem : String → ℚ}
    (hb : ∀ p ∈ WASTE_CATEGORIES, -1 ≤ sem p.1 ∧ sem p.1 ≤ 1) :
    ∀ q ∈ semanticScores sem, -1 ≤ q.2 ∧ q.2 ≤ 1 := by
  intro q hq
  rcases List.mem_map.mp hq with ⟨p, hp, hpq⟩
  rw [← hpq]
  exact hb p hp

theorem one_le_sum_of_all_one_le {l : List ℕ} (h : ∀ x ∈ l, 1 ≤ x) (hne : l ≠ []) :
    1 ≤ l.sum := by
  cases l with
  | nil => exact absurd rfl hne
  | cons x t =>
    have hx := h x (List.mem_cons_self x t)
    simp only [List.sum_cons]
    omega

/-- Every reported keyword score is strictly positive. -/
theorem keywordScores_pos (d : String) : ∀ q ∈ keywordScores d, 0 < q.2 := by
  intro q hq
  rw [keywordScores] at hq
  rcases List.mem_filterMap.mp hq with ⟨p, hp, hpq⟩
  dsimp only at hpq
  by_cases hm : (p.2.filter (fun k => strContains (strToLower d) k)).length = 0
  · rw [if_pos hm] at hpq
    cases hpq
  · rw [if_neg hm] at hpq
    have hpair := Option.some_inj.mp hpq
    have hmne : p.2.filter (fun k => strContains (strToLower d) k) ≠ [] := by
      intro hnil
      rw [hnil] at hm
      exact hm rfl
    have hsum : 1 ≤ ((p.2.filter (fun k => strContains (strToLower d) k)).map wordCount).sum := by
      apply one_le_sum_of_all_one_le
      · intro x hx
        rcases List.mem_map.mp hx with ⟨kw, hkw, hkx⟩
        rw [← hkx]
        exact wastecat_wordCount_pos p hp kw (List.mem_of_mem_filter hkw)
      · intro hnil
        exact hmne (List.map_eq_nil_iff.mp hnil)
    have hlen : 0 < p.2.length := by
      have h1 : (p.2.filter (fun k => strContains (strToLower d) k)).length ≤ p.2.length :=
        List.length_filter_le _ _
      have h2 : 0 < (p.2.filter (fun k => strContains (strToLower d) k)).length :=
        Nat.pos_of_ne_zero hm
      omega
    rw [← hpair]
    dsimp only
    apply div_pos
    · exact_mod_cast hsum
    · exact_mod_cast hlen

/-- `List.lookup` returns a pair of the list. -/
theorem lookup_mem {l : List (String × ℚ)} {a : String} {v : ℚ}
    (h : l.lookup a = some v) : (a, v) ∈ l := by
  induction l with
  | nil => cases h
  | cons p t ih =>
    rw [List.lookup_cons] at h
    by_cases hap : (a == p.1) = true
    · rw [hap] at h
      have ha : a = p.1 := by
        have := hap
        simp only [beq_iff_eq] at this
        exact this
      have hv : v = p.2 := (Option.some_inj.mp h).symm
      rw [ha, hv]
      exact List.mem_cons_self _ _
    · rw [Bool.eq_false_iff.mpr hap] at h
      exact List.mem_cons_of_mem _ (ih h)

/-- The keyword boost looked up for a category is nonnegative. -/
theorem keywordScores_lookup_nonneg (d c : String) :
    0 ≤ ((keywordScores d).lookup c).getD 0 := by
  cases h : (keywordScores d).lookup c with
  | none => simp
  | some v =>
    simp only [Option.getD_some]
    exact le_of_lt (keywordScores_pos d (c, v) (lookup_mem h))

theorem pyRound2_unit {q : ℚ} (h0 : 0 ≤ q) (h1 : q ≤ 1) :
    0 ≤ pyRound 2 q ∧ pyRound 2 q ≤ 1 :=
  ⟨by simpa using pyRound_ge (d := 2) (m := 0) (by simpa using h0),
   by simpa using pyRound_le (d := 2) (n := 1) (by simpa using h1)⟩

theorem pyRound2_symm_unit {q : ℚ} (h0 : -1 ≤ q) (h1 : q ≤ 1) :
    -1 ≤ pyRound 2 q ∧ pyRound 2 q ≤ 1 :=
  ⟨by simpa using pyRound_ge (d := 2) (m := -1) (by simpa using h0),
   by simpa using pyRound_le (d := 2) (n := 1) (by simpa using h1)⟩


/-! ### Shared concrete evaluations -/

/-- With all semantic scores equal, the winner is the first table entry. -/
theorem pyMax_semantic_const (c : ℚ) : pyMax (semanticScores (fun _ => c)) = ("plastic", c) := by
  simp [semanticScores, WASTE_CATEGORIES, pyMax]

/-- The empty description matches no keyword. -/
theorem keywordScores_empty_str : keywordScores "" = [] := by
  simp +decide only [keywordScores, WASTE_CATEGORIES, List.filterMap_cons, List.filterMap_nil,
    List.filter_cons, List.filter_nil]

/-- A nonsense description matches no keyword. -/
theorem keywordScores_xyzq : keywordScores "xyzq" = [] := by
  simp +decide only [keywordScores, WASTE_CATEGORIES, List.filterMap_cons, List.filterMap_nil,
    List.filter_cons, List.filter_nil]

/-- The description "glassware" matches exactly the two glass keywords
"glass" and "glassware". -/
theorem keywordScores_glassware : keywordScores "glassware" = [("glass", (2:ℚ)/9)] := by
  simp +decide only [keywordScores, WASTE_CATEGORIES, List.filterMap_cons, List.filterMap_nil,
    List.filter_cons, List.filter_nil, List.map_cons, List.map_nil,
    List.sum_cons, List.sum_nil, List.length_cons, List.length_nil]
  norm_num [show wordCount "glass" = 1 from by decide,
    show wordCount "glassware" = 1 from by decide]

/-! ### Claim theorems: classification -/

/-- C3: whenever the maximal cosine similarity reaches 0.50,
`classify_waste_type` returns the arg-max category (first on ties), with
confidence `min(semantic_confidence + keyword_score[winner]·0.2, 1)`
rounded to 2 decimals, the keyword score counting as 0 when the winner has
no keyword match. -/
theorem classify_semantic_path (sem : String → ℚ) (d : String)
    (h : 1/2 ≤ (pyMax (semanticScores sem)).2) :
    pyMax (semanticScores sem) ∈ semanticScores sem
    ∧ (∀ p ∈ semanticScores sem, p.2 ≤ (pyMax (semanticScores sem)).2)
    ∧ classify_waste_type sem d
        = ((pyMax (semanticScores sem)).1,
           pyRound 2 (min ((pyMax (semanticScores sem)).2
             + (((keywordScores d).lookup (pyMax (semanticScores sem)).1).getD 0) * (2/10)) 1)) := by
  refine ⟨pyMax_mem (semanticScores_ne_nil sem), pyMax_le, ?_⟩
  rw [classify_waste_type]
  dsimp only
  rw [if_pos h]

theorem classify_semantic_path_witness :
    classify_waste_type (fun _ : String => (3:ℚ)/5) "" = ("plastic", 3/5) := by
  have hmax := pyMax_semantic_const (3/5)
  have h : (1:ℚ)/2 ≤ (pyMax (semanticScores (fun _ : String => (3:ℚ)/5))).2 := by
    rw [hmax]
    norm_num
  rw [(classify_semantic_path (fun _ : String => (3:ℚ)/5) "" h).2.2, hmax,
    keywordScores_empty_str]
  simp only [List.lookup_nil, Option.getD_none]
  norm_num [pyRound, roundHalfEven, min_def]

/-- C4: when the maximal cosine similarity is below 0.50 and some category
has a keyword match, `classify_waste_type` returns the best keyword
category (first on ties) with confidence `min(score·2, 1)`, boosted by
`semantic_confidence·0.3` and re-capped at 1 exactly when the keyword
winner coincides with the semantic winner, rounded to 2 decimals. -/
theorem classify_keyword_path (sem : String → ℚ) (d : String)
    (h1 : (pyMax (semanticScores sem)).2 < 1/2)
    (h2 : keywordScores d ≠ []) :
    pyMax (keywordScores d) ∈ keywordScores d
    ∧ (∀ p ∈ keywordScores d, p.2 ≤ (pyMax (keywordScores d)).2)
    ∧ classify_waste_type sem d
        = ((pyMax (keywordScores d)).1,
           pyRound 2
             (if (pyMax (semanticScores sem)).1 = (pyMax (keywordScores d)).1 then
               min (min ((pyMax (keywordScores d)).2 * 2) 1
                 + (pyMax (semanticScores sem)).2 * (3/10)) 1
             else min ((pyMax (keywordScores d)).2 * 2) 1)) := by
  have hem : ¬ ((keywordScores d).isEmpty = true) := by
    intro hx
    exact h2 (List.isEmpty_iff.mp hx)
  refine ⟨pyMax_mem h2, pyMax_le, ?_⟩
  rw [classify_waste_type]
  dsimp only
  rw [if_neg (not_le.mpr h1), if_neg hem]

theorem classify_keyword_path_witness :
    classify_waste_type (fun _ : String => (0:ℚ)) "glassware" = ("glass", 11/25) := by
  have hmax := pyMax_semantic_const 0
  have h1 : (pyMax (semanticScores (fun _ : String => (0:ℚ)))).2 < 1/2 := by
    rw [hmax]
    norm_num
  have h2 : keywordScores "glassware" ≠ [] := by
    rw [keywordScores_glassware]
    simp
  rw [(classify_keyword_path (fun _ : String => (0:ℚ)) "glassware" h1 h2).2.2, hmax,
    keywordScores_glassware]
  norm_num [pyMax, pyRound, roundHalfEven, min_def]

/-- C9: an encoder failure is not propagated: classification answers with
the keyword-only fallback, which returns the best-scoring keyword category
at confidence `min(score·2, 1)` rounded to 2 decimals, and
`("unclassified", 0.0)` when no keyword of any category occurs. -/
theorem classify_fallback_spec (d : String) :
    classify_waste_type_total (Except.error ()) d = classify_by_keywords_only d
    ∧ (keywordScores d = [] → classify_by_keywords_only d = ("unclassified", 0))
    ∧ (keywordScores d ≠ [] →
        pyMax (keywordScores d) ∈ keywordScores d
        ∧ (∀ p ∈ keywordScores d, p.2 ≤ (pyMax (keywordScores d)).2)
        ∧ classify_by_keywords_only d
            = ((pyMax (keywordScores d)).1,
               pyRound 2 (min ((pyMax (keywordScores d)).2 * 2) 1))) := by
  refine ⟨rfl, ?_, ?_⟩
  · intro h
    rw [classify_by_keywords_only]
    dsimp only
    rw [if_pos (by rw [h]; rfl)]
  · intro h
    have hem : ¬ ((keywordScores d).isEmpty = true) := by
      intro hx
      exact h (List.isEmpty_iff.mp hx)
    refine ⟨pyMax_mem h, pyMax_le, ?_⟩
    rw [classify_by_keywords_only]
    dsimp only
    rw [if_neg hem]

theorem classify_fallback_spec_witness :
    classify_waste_type_total (Except.error ()) "xyzq" = ("unclassified", 0) := by
  have h := classify_fallback_spec "xyzq"
  rw [h.1, h.2.1 keywordScores_xyzq]

/-- C2 counterexample: an encoder output whose cosine similarities all
equal −0.5 (inside [−1, 1]) drives the low-signal pass-through path to a
negative confidence, outside [0, 1]. -/
theorem classify_confidence_cex :
    ((-1:ℚ) ≤ -(1/2) ∧ (-(1/2) : ℚ) ≤ 1)
    ∧ classify_waste_type (fun _ : String => -(1/2 : ℚ)) "" = ("plastic", -(1/2))
    ∧ (classify_waste_type (fun _ : String => -(1/2 : ℚ)) "").2 < 0 := by
  have hmax := pyMax_semantic_const (-(1/2))
  have hcls : classify_waste_type (fun _ : String => -(1/2 : ℚ)) "" = ("plastic", -(1/2)) := by
    rw [classify_waste_type]
    dsimp only
    rw [keywordScores_empty_str, hmax]
    rw [if_neg (by norm_num)]
    norm_num [pyRound, roundHalfEven]
  refine ⟨by norm_num, hcls, ?_⟩
  rw [hcls]
  norm_num

/-- C2 (amended): for encoder similarities within [−1, 1] the returned
confidence lies in [−1, 1]; it lies in [0, 1] whenever the maximal
similarity is nonnegative (hence on the semantic-trust path), and the
keyword-only fallback always stays in [0, 1].  The low-signal pass-through
path reproduces a negative maximal similarity unchanged, so [0, 1] does
not hold unconditionally. -/
theorem classify_confidence_bounds (sem : String → ℚ) (d : String)
    (hb : ∀ p ∈ WASTE_CATEGORIES, -1 ≤ sem p.1 ∧ sem p.1 ≤ 1) :
    (-1 ≤ (classify_waste_type sem d).2 ∧ (classify_waste_type sem d).2 ≤ 1)
    ∧ (0 ≤ (pyMax (semanticScores sem)).2 →
        0 ≤ (classify_waste_type sem d).2 ∧ (classify_waste_type sem d).2 ≤ 1)
    ∧ 0 ≤ (classify_by_keywords_only d).2 ∧ (classify_by_keywords_only d).2 ≤ 1 := by
  have hbest := semanticScores_bounds hb _ (pyMax_mem (semanticScores_ne_nil sem))
  have hfb : 0 ≤ (classify_by_keywords_only d).2 ∧ (classify_by_keywords_only d).2 ≤ 1 := by
    rw [classify_by_keywords_only]
    dsimp only
    by_cases hks : (keywordScores d).isEmpty = true
    · rw [if_pos hks]
      norm_num
    · rw [if_neg hks]
      dsimp only
      have hne : keywordScores d ≠ [] := by
        intro h0
        exact hks (by rw [h0]; rfl)
      have hpos : 0 < (pyMax (keywordScores d)).2 :=
        keywordScores_pos d _ (pyMax_mem hne)
      exact pyRound2_unit (le_min (by linarith) (by norm_num)) (min_le_right _ _)
  rw [classify_waste_type]
  dsimp only
  by_cases h1 : (1:ℚ)/2 ≤ (pyMax (semanticScores sem)).2
  · rw [if_pos h1]
    dsimp only
    have hboost : 0 ≤ ((keywordScores d).lookup (pyMax (semanticScores sem)).1).getD 0 * (2/10) :=
      mul_nonneg (keywordScores_lookup_nonneg _ _) (by norm_num)
    have hval : 0 ≤ pyRound 2 (min ((pyMax (semanticScores sem)).2
          + ((keywordScores d).lookup (pyMax (semanticScores sem)).1).getD 0 * (2/10)) 1)
        ∧ pyRound 2 (min ((pyMax (semanticScores sem)).2
          + ((keywordScores d).lookup (pyMax (semanticScores sem)).1).getD 0 * (2/10)) 1) ≤ 1 :=
      pyRound2_unit (le_min (by linarith) (by norm_num)) (min_le_right _ _)
    exact ⟨⟨by linarith [hval.1], hval.2⟩, fun _ => hval, hfb⟩
  · rw [if_neg h1]
    by_cases h2 : (keywordScores d).isEmpty = true
    · rw [if_pos h2]
      dsimp only
      exact ⟨pyRound2_symm_unit hbest.1 hbest.2,
        fun h0 => pyRound2_unit h0 hbest.2, hfb⟩
    · rw [if_neg h2]
      dsimp only
      have hne : keywordScores d ≠ [] := by
        intro h0
        exact h2 (by rw [h0]; rfl)
      have hpos : 0 < (pyMax (keywordScores d)).2 :=
        keywordScores_pos d _ (pyMax_mem hne)
      have hkc : 0 < min ((pyMax (keywordScores d)).2 * 2) 1 :=
        lt_min (by linarith) (by norm_num)
      by_cases h3 : (pyMax (semanticScores sem)).1 = (pyMax (keywordScores d)).1
      · rw [if_pos h3]
        have hgen : -1 ≤ pyRound 2 (min (min ((pyMax (keywordScores d)).2 * 2) 1
              + (pyMax (semanticScores sem)).2 * (3/10)) 1)
            ∧ pyRound 2 (min (min ((pyMax (keywordScores d)).2 * 2) 1
              + (pyMax (semanticScores sem)).2 * (3/10)) 1) ≤ 1 :=
          pyRound2_symm_unit (le_min (by linarith [hbest.1]) (by norm_num)) (min_le_right _ _)
        refine ⟨hgen, fun h0 => ?_, hfb⟩
        exact pyRound2_unit (le_min (by linarith) (by norm_num)) (min_le_right _ _)
      · rw [if_neg h3]
        have hval : 0 ≤ pyRound 2 (min ((pyMax (keywordScores d)).2 * 2) 1)
            ∧ pyRound 2 (min ((pyMax (keywordScores d)).2 * 2) 1) ≤ 1 :=
          pyRound2_unit (le_of_lt hkc) (min_le_right _ _)
        exact ⟨⟨by linarith [hval.1], hval.2⟩, fun _ => hval, hfb⟩

theorem classify_confidence_bounds_witness :
    (-1 ≤ (classify_waste_type (fun _ : String => -(1/2:ℚ)) "").2
      ∧ (classify_waste_type (fun _ : String => -(1/2:ℚ)) "").2 ≤ 1)
    ∧ (0 ≤ (classify_waste_type (fun _ : String => (1/4:ℚ)) "").2
      ∧ (classify_waste_type (fun _ : String => (1/4:ℚ)) "").2 ≤ 1) := by
  constructor
  · exact (classify_confidence_bounds _ "" (by intro p hp; norm_num)).1
  · refine (classify_confidence_bounds (fun _ : String => (1/4:ℚ)) "" (by intro p hp; norm_num)).2.1 ?_
    rw [pyMax_semantic_const (1/4)]
    norm_num


/-! ### Claim theorems: trend classification -/

/-- C6: for previous > 0 the change percentage is
`(current − previous)/previous · 100`, the trend is `rising` iff it
exceeds 20, `falling` iff below −20, else `stable`, and on the
rising/falling records the severity is `high` exactly when the absolute
change exceeds 50 and `medium` otherwise; previous = 0 with current > 0
gives `new` with no percentage; 100→125 is rising/medium with 25.0 and
100→170 is rising/high with 70.0. -/
theorem analyze_trends_spec (w : String) (c p : ℕ) (hp : 0 < p) :
    (∃ it : TrendItem, classify_trend w c p = some it
      ∧ it.change_percentage = some (pyRound 1 (((c:ℚ) - p) / p * 100))
      ∧ (it.trend = Trend.rising ↔ 20 < ((c:ℚ) - p) / p * 100)
      ∧ (it.trend = Trend.falling ↔ ((c:ℚ) - p) / p * 100 < -20)
      ∧ (it.trend = Trend.stable ↔
          (-20 ≤ ((c:ℚ) - p) / p * 100 ∧ ((c:ℚ) - p) / p * 100 ≤ 20))
      ∧ ((it.trend = Trend.rising ∨ it.trend = Trend.falling) →
          ((it.severity = some "high" ↔ 50 < |((c:ℚ) - p) / p * 100|)
           ∧ (it.severity = some "medium" ↔ |((c:ℚ) - p) / p * 100| ≤ 50))))
    ∧ (∀ c' : ℕ, 0 < c' →
        classify_trend w c' 0 = some ⟨w, c', 0, none, (c' : ℤ), Trend.new, none⟩)
    ∧ classify_trend "plastic" 125 100
        = some ⟨"plastic", 125, 100, some 25, 25, Trend.rising, some "medium"⟩
    ∧ classify_trend "plastic" 170 100
        = some ⟨"plastic", 170, 100, some 70, 70, Trend.rising, some "high"⟩ := by
  refine ⟨?_, ?_, ?_, ?_⟩
  · rw [classify_trend, if_neg (fun hand => hp.ne' hand.1), if_pos hp]
    dsimp only
    by_cases h1 : 20 < ((c:ℚ) - p) / p * 100
    · rw [if_pos h1]
      have habs : |((c:ℚ) - p) / p * 100| = ((c:ℚ) - p) / p * 100 :=
        abs_of_pos (by linarith)
      by_cases h50 : 50 < ((c:ℚ) - p) / p * 100
      · rw [if_pos h50]
        refine ⟨_, rfl, rfl, iff_of_true rfl h1,
          iff_of_false (by simp) (by intro hh; linarith),
          iff_of_false (by simp) (by intro hh; linarith [hh.2]),
          fun _ => ⟨iff_of_true rfl (by rw [habs]; exact h50),
            iff_of_false (by simp) (by rw [habs]; intro hh; linarith)⟩⟩
      · rw [if_neg h50]
        refine ⟨_, rfl, rfl, iff_of_true rfl h1,
          iff_of_false (by simp) (by intro hh; linarith),
          iff_of_false (by simp) (by intro hh; linarith [hh.2]),
          fun _ => ⟨iff_of_false (by simp) (by rw [habs]; exact h50),
            iff_of_true rfl (by rw [habs]; exact not_lt.mp h50)⟩⟩
    · rw [if_neg h1]
      by_cases h2 : ((c:ℚ) - p) / p * 100 < -20
      · rw [if_pos h2]
        have habs : |((c:ℚ) - p) / p * 100| = -(((c:ℚ) - p) / p * 100) :=
          abs_of_neg (by linarith)
        by_cases h50 : ((c:ℚ) - p) / p * 100 < -50
        · rw [if_pos h50]
          refine ⟨_, rfl, rfl, iff_of_false (by simp) h1,
            iff_of_true rfl h2,
            iff_of_false (by simp) (by intro hh; linarith [hh.1]),
            fun _ => ⟨iff_of_true rfl (by rw [habs]; linarith),
              iff_of_false (by simp) (by rw [habs]; intro hh; linarith)⟩⟩
        · rw [if_neg h50]
          refine ⟨_, rfl, rfl, iff_of_false (by simp) h1,
            iff_of_true rfl h2,
            iff_of_false (by simp) (by intro hh; linarith [hh.1]),
            fun _ => ⟨iff_of_false (by simp) (by rw [habs]; intro hh; linarith),
              iff_of_true rfl (by rw [habs]; linarith)⟩⟩
      · rw [if_neg h2]
        exact ⟨_, rfl, rfl, iff_of_false (by simp) h1,
          iff_of_false (by simp) h2,
          iff_of_true rfl ⟨by linarith [not_lt.mp h2], not_lt.mp h1⟩,
          fun hor => absurd hor (by simp)⟩
  · intro c' hc'
    rw [classify_trend, if_pos ⟨rfl, hc'⟩]
    norm_num
  · norm_num [classify_trend, pyRound, roundHalfEven]
  · norm_num [classify_trend, pyRound, roundHalfEven]

theorem analyze_trends_spec_witness :
    classify_trend "plastic" 125 100
      = some ⟨"plastic", 125, 100, some 25, 25, Trend.rising, some "medium"⟩ :=
  (analyze_trends_spec "plastic" 125 100 (by norm_num)).2.2.1


/-! ### Claim theorems: anomaly detection -/

/-- C8: a location is reported anomalous exactly when its count strictly
exceeds `mean · multiplier` (mean = arithmetic mean of the per-location
counts); a reported record carries the rounded mean and threshold and is
`high` exactly when the count exceeds 1.5 times the threshold, `medium`
otherwise; no locations give an empty result; the worked example
{A:5, B:5, C:5, D:40} with multiplier 2 reports only D, as `medium`. -/
theorem anomalies_spec (location_counts : List (String × ℕ)) (mult : ℚ)
    (loc : String) (c : ℕ) (hmem : (loc, c) ∈ location_counts) :
    detect_anomalies [] mult = []
    ∧ ((∃ a, a ∈ detect_anomalies location_counts mult ∧ a.location = loc ∧ a.count = c)
        ↔ anomalyMean location_counts * mult < (c:ℚ))
    ∧ (∀ a ∈ detect_anomalies location_counts mult,
        a.mean = pyRound 2 (anomalyMean location_counts)
        ∧ a.threshold = pyRound 2 (anomalyMean location_counts * mult)
        ∧ anomalyMean location_counts * mult < (a.count:ℚ)
        ∧ (a.severity = "high" ↔
            anomalyMean location_counts * mult * (3/2) < (a.count:ℚ))
        ∧ (a.severity = "medium" ↔
            (a.count:ℚ) ≤ anomalyMean location_counts * mult * (3/2)))
    ∧ detect_anomalies [("A", 5), ("B", 5), ("C", 5), ("D", 40)] 2
        = [⟨"D", 40, 55/4, 55/2, "medium"⟩] := by
  have hne : location_counts.isEmpty ≠ true := by
    cases location_counts with
    | nil => cases hmem
    | cons q t => simp
  refine ⟨rfl, ?_, ?_, ?_⟩
  · rw [detect_anomalies, if_neg hne]
    dsimp only
    constructor
    · rintro ⟨a, ha, hloc, hcount⟩
      rcases List.mem_filterMap.mp ha with ⟨q, _, hq⟩
      by_cases hth : anomalyMean location_counts * mult < (q.2:ℚ)
      · rw [if_pos hth] at hq
        have := Option.some_inj.mp hq
        rw [← hcount, ← this]
        exact hth
      · rw [if_neg hth] at hq
        cases hq
    · intro hth
      refine ⟨⟨loc, c, pyRound 2 (anomalyMean location_counts),
        pyRound 2 (anomalyMean location_counts * mult),
        if anomalyMean location_counts * mult * (3/2) < (c:ℚ) then "high" else "medium"⟩,
        ?_, rfl, rfl⟩
      apply List.mem_filterMap.mpr
      exact ⟨(loc, c), hmem, by rw [if_pos hth]⟩
  · intro a ha
    rw [detect_anomalies, if_neg hne] at ha
    dsimp only at ha
    rcases List.mem_filterMap.mp ha with ⟨q, _, hq⟩
    by_cases hth : anomalyMean location_counts * mult < (q.2:ℚ)
    · rw [if_pos hth] at hq
      have hrec := Option.some_inj.mp hq
      rw [← hrec]
      refine ⟨rfl, rfl, hth, ?_, ?_⟩
      · by_cases h15 : anomalyMean location_counts * mult * (3/2) < (q.2:ℚ)
        · rw [if_pos h15]
          exact iff_of_true rfl h15
        · rw [if_neg h15]
          exact iff_of_false (by simp) h15
      · by_cases h15 : anomalyMean location_counts * mult * (3/2) < (q.2:ℚ)
        · rw [if_pos h15]
          exact iff_of_false (by simp) (not_le.mpr h15)
        · rw [if_neg h15]
          exact iff_of_true rfl (not_lt.mp h15)
    · rw [if_neg hth] at hq
      cases hq
  · norm_num [detect_anomalies, anomalyMean, pyRound, roundHalfEven]
    rw [List.filterMap_cons]
    norm_num

theorem anomalies_spec_witness :
    detect_anomalies [("A", 5), ("B", 5), ("C", 5), ("D", 40)] 2
      = [⟨"D", 40, 55/4, 55/2, "medium"⟩] :=
  (anomalies_spec [("A", 5), ("B", 5), ("C", 5), ("D", 40)] 2 "D" 40
    (by norm_num)).2.2.2


/-! ### Claim theorems: daily spike detection -/

/-- Evaluation of the spike detector on the spec's worked example: the
day with count 50 is below the threshold
`mean + 2.5 · stddev ≈ 15.7 + 35.0 = 50.7`, so nothing is reported. -/
theorem detect_exampleWeek : detect_daily_spikes exampleWeek = [] := by
  have hm : dailyMean exampleWeek = 110/7 := by
    norm_num [dailyMean, exampleWeek]
  have hv : dailyVariance exampleWeek = 67200/343 := by
    norm_num [dailyVariance, dailyMean, exampleWeek]
  rw [detect_daily_spikes, if_neg (by norm_num [exampleWeek])]
  dsimp only
  rw [hm, hv]
  rw [show exampleWeek = [("d1", 10), ("d2", 10), ("d3", 10), ("d4", 10), ("d5", 10),
    ("d6", 10), ("d7", 50)] from rfl]
  norm_num [List.filterMap_cons, spikeExceeds]

/-- C1 counterexample: on daily counts [10,10,10,10,10,10,50] the spike
detector reports nothing, because 50 lies strictly below
`mean + 2.5 · stddev` (which equals `110/7 + 2.5·√(67200/343) > 350/7 = 50`). -/
theorem spikes_example_cex :
    detect_daily_spikes exampleWeek = []
    ∧ (50 : ℝ) < (dailyMean exampleWeek : ℝ)
        + (5/2) * Real.sqrt (dailyVariance exampleWeek : ℝ) := by
  refine ⟨detect_exampleWeek, ?_⟩
  have hm : dailyMean exampleWeek = 110/7 := by
    norm_num [dailyMean, exampleWeek]
  have hv : dailyVariance exampleWeek = 67200/343 := by
    norm_num [dailyVariance, dailyMean, exampleWeek]
  rw [hm, hv]
  have hcast : (((67200:ℚ)/343 : ℚ) : ℝ) = (67200:ℝ)/343 := by push_cast; ring
  have hs : (96/7 : ℝ) < Real.sqrt (((67200:ℚ)/343 : ℚ) : ℝ) := by
    rw [hcast]
    rw [show (96/7 : ℝ) = Real.sqrt ((96/7)^2) from (Real.sqrt_sq (by norm_num)).symm]
    apply Real.sqrt_lt_sqrt (by positivity)
    norm_num
  have hcast2 : (((110:ℚ)/7 : ℚ) : ℝ) = (110:ℝ)/7 := by push_cast; ring
  rw [hcast2]
  nlinarith [hs]

/-- C1 (amended): the spike detector uses the population mean and
population standard deviation of the daily counts and flags a day exactly
when its count strictly exceeds `mean + 2.5 · stddev`; on the worked
example [10,10,10,10,10,10,50] the threshold is ≈50.7, so the day with
count 50 is NOT flagged and the result is empty. -/
theorem spikes_spec (daily : List (String × ℕ)) (h3 : 3 ≤ daily.length)
    (dt : String) (c : ℕ) (hmem : (dt, c) ∈ daily) :
    ((∃ sev, Spike.mk dt c sev ∈ detect_daily_spikes daily) ↔
      (dailyMean daily : ℝ)
        + (5/2) * Real.sqrt (dailyVariance daily : ℝ) < (c : ℝ))
    ∧ detect_daily_spikes exampleWeek = [] := by
  refine ⟨?_, detect_exampleWeek⟩
  rw [detect_daily_spikes, if_neg (not_lt.mpr h3)]
  dsimp only
  rw [show ((dailyMean daily : ℝ) + (5/2) * Real.sqrt (dailyVariance daily : ℝ) < (c : ℝ))
      = (((dailyMean daily : ℚ) : ℝ)
        + (((5:ℚ)/2 : ℚ) : ℝ) * Real.sqrt (dailyVariance daily : ℝ) < (c : ℝ)) from by
    push_cast
    ring_nf]
  rw [← spikeExceeds_iff_real (dailyVariance_nonneg daily) (by norm_num : (0:ℚ) < 5/2)]
  constructor
  · rintro ⟨sev, hs⟩
    rcases List.mem_filterMap.mp hs with ⟨q, _, hfq⟩
    by_cases hsp : spikeExceeds q.2 (dailyMean daily) (dailyVariance daily) (5/2) = true
    · rw [if_pos hsp] at hfq
      have hq := Option.some_inj.mp hfq
      have hc : q.2 = c := congrArg Spike.count hq
      rwa [← hc]
    · rw [if_neg hsp] at hfq
      cases hfq
  · intro hsp
    refine ⟨if spikeExceeds c (dailyMean daily) (dailyVariance daily) 4 = true
        then "high" else "medium", ?_⟩
    apply List.mem_filterMap.mpr
    exact ⟨(dt, c), hmem, by rw [if_pos hsp]⟩

theorem spikes_spec_witness : detect_daily_spikes exampleWeek = [] :=
  (spikes_spec exampleEight (by norm_num [exampleEight]) "d8" 60
    (by simp [exampleEight])).2


/-! ### Claim theorems: similarity search -/

/-- Inversion of the candidate loop: a scored candidate is a corpus row
with a different id and a non-null non-empty embedding, scored by `sim`. -/
theorem scored_candidates_mem {sim : List ℚ → ℚ} {corpus : List Incident} {cur : ℕ}
    {p : Incident × ℚ} (hp : p ∈ scored_candidates sim corpus cur) :
    p.1 ∈ corpus ∧ p.1.id ≠ cur
      ∧ ∃ e, p.1.embedding = some e ∧ e ≠ [] ∧ p.2 = sim e := by
  rw [scored_candidates] at hp
  rcases List.mem_filterMap.mp hp with ⟨inc, hinc, hfi⟩
  have hmem := List.mem_filter.mp hinc
  have hid : inc.id ≠ cur := by
    have h2 := hmem.2
    rw [Bool.and_eq_true] at h2
    exact of_decide_eq_true h2.1
  cases he : inc.embedding with
  | none =>
    rw [he] at hfi
    cases hfi
  | some e =>
    rw [he] at hfi
    dsimp only at hfi
    by_cases hlen : 0 < e.length
    · rw [if_pos hlen] at hfi
      have hpe := Option.some_inj.mp hfi
      rw [← hpe]
      exact ⟨hmem.1, hid, e, he, List.ne_nil_of_length_pos hlen, rfl⟩
    · rw [if_neg hlen] at hfi
      cases hfi

/-- C5: `find_similar_incidents` returns exactly the candidates with a
different id, a non-null non-empty embedding and similarity at or above
the threshold, sorted descending by similarity and truncated to `limit`;
the omitted threshold defaults to the configured 0.75; an empty corpus
yields an empty result. -/
theorem find_similar_spec (sim : List ℚ → ℚ) (corpus : List Incident)
    (cur : ℕ) (t : ℚ) (limit : ℕ) :
    (SIMILARITY_THRESHOLD = 3/4
      ∧ find_similar_incidents sim corpus cur none limit
          = find_similar_incidents sim corpus cur (some (3/4)) limit)
    ∧ find_similar_incidents sim [] cur (some t) limit = []
    ∧ (find_similar_incidents sim corpus cur (some t) limit).length
        = min limit (qualifying sim corpus cur t).length
    ∧ (∀ inc ∈ find_similar_incidents sim corpus cur (some t) limit,
        inc ∈ corpus ∧ inc.id ≠ cur
          ∧ ∃ e, inc.embedding = some e ∧ e ≠ [] ∧ t ≤ sim e)
    ∧ (find_similar_incidents sim corpus cur (some t) limit).Pairwise
        (fun a b => sim (b.embedding.getD []) ≤ sim (a.embedding.getD []))
    ∧ ((qualifying sim corpus cur t).length ≤ limit →
        List.Perm (find_similar_incidents sim corpus cur (some t) limit)
          ((qualifying sim corpus cur t).map Prod.fst)) := by
  have hsnd : ∀ p ∈ qualifying sim corpus cur t, sim (p.1.embedding.getD []) = p.2 := by
    intro p hp
    have hsc := (List.mem_filter.mp hp).1
    rcases (scored_candidates_mem hsc).2.2 with ⟨e, he, _, hpe⟩
    rw [he, Option.getD_some, hpe]
  refine ⟨⟨rfl, rfl⟩, by simp [find_similar_incidents, qualifying, scored_candidates], ?_, ?_, ?_, ?_⟩
  · rw [find_similar_incidents]
    simp only [Option.getD_some]
    rw [List.length_map, List.length_take, length_sortDesc]
  · intro inc hinc
    rw [find_similar_incidents] at hinc
    simp only [Option.getD_some] at hinc
    rcases List.mem_map.mp hinc with ⟨p, hp, hpi⟩
    have hq : p ∈ qualifying sim corpus cur t :=
      mem_sortDesc.mp (List.take_subset _ _ hp)
    have hfil := List.mem_filter.mp hq
    have hth : t ≤ p.2 := of_decide_eq_true hfil.2
    rcases scored_candidates_mem hfil.1 with ⟨hc, hid, e, he, hene, hpe⟩
    rw [← hpi]
    exact ⟨hc, hid, e, he, hene, by rw [← hpe]; exact hth⟩
  · rw [find_similar_incidents]
    simp only [Option.getD_some]
    apply (List.pairwise_map).mpr
    have hsorted := sortDesc_sorted (Prod.snd)
      (qualifying sim corpus cur t)
    have htake := List.Pairwise.sublist (List.take_sublist limit _) hsorted
    refine List.Pairwise.imp_of_mem ?_ htake
    intro a b ha hb hab
    have ha' : a ∈ qualifying sim corpus cur t := mem_sortDesc.mp (List.take_subset _ _ ha)
    have hb' : b ∈ qualifying sim corpus cur t := mem_sortDesc.mp (List.take_subset _ _ hb)
    rw [hsnd a ha', hsnd b hb']
    exact hab
  · intro hlen
    rw [find_similar_incidents]
    simp only [Option.getD_some]
    rw [List.take_of_length_le (by rw [length_sortDesc]; exact hlen)]
    exact (sortDesc_perm _ _).map Prod.fst

/-- The qualifying list of the worked corpus at threshold 1.5: only the
incident with embedding [2] (score 2) passes. -/
theorem qualifying_example_eval :
    qualifying (fun e => e.headD 0)
      [⟨1, some [2]⟩, ⟨2, some [1]⟩, ⟨3, none⟩] 9 (3/2)
      = [(⟨1, some [2]⟩, 2)] := by
  norm_num [qualifying, scored_candidates, List.filter_cons, List.filter_nil,
    List.filterMap_cons, List.filterMap_nil]

theorem find_similar_spec_witness :
    List.Perm
      (find_similar_incidents (fun e => e.headD 0)
        [⟨1, some [2]⟩, ⟨2, some [1]⟩, ⟨3, none⟩] 9 (some (3/2)) 5)
      ((qualifying (fun e => e.headD 0)
        [⟨1, some [2]⟩, ⟨2, some [1]⟩, ⟨3, none⟩] 9 (3/2)).map Prod.fst) :=
  (find_similar_spec (fun e => e.headD 0)
    [⟨1, some [2]⟩, ⟨2, some [1]⟩, ⟨3, none⟩] 9 (3/2) 5).2.2.2.2.2
    (by rw [qualifying_example_eval]; norm_num)

/-- C7: raising the threshold shrinks the result: every incident returned
at threshold t2 is also returned at any threshold t1 < t2 (with the same
query, corpus, exclusion and limit). -/
theorem find_similar_threshold_mono (sim : List ℚ → ℚ) (corpus : List Incident)
    (cur : ℕ) (limit : ℕ) (t1 t2 : ℚ) (h : t1 < t2) :
    ∀ inc ∈ find_similar_incidents sim corpus cur (some t2) limit,
      inc ∈ find_similar_incidents sim corpus cur (some t1) limit := by
  intro inc hinc
  have hsplit := sortDesc_filter_split (k := Prod.snd)
    (fun x : Incident × ℚ => decide (t1 ≤ x.2))
    (fun x : Incident × ℚ => decide (t2 ≤ x.2))
    (scored_candidates sim corpus cur)
    (by
      intro x hx
      rw [decide_eq_true_eq] at hx ⊢
      linarith)
    (by
      intro x y hx hy hyq
      rw [decide_eq_true_eq] at hx hy
      have hy2 : ¬ (t2 ≤ y.2) := by
        simp only [decide_eq_false_iff_not] at hyq
        exact hyq
      linarith [not_le.mp hy2])
  rw [find_similar_incidents] at hinc ⊢
  simp only [Option.getD_some] at hinc ⊢
  rw [qualifying] at hinc ⊢
  rw [hsplit, List.take_append_eq_append_take, List.map_append]
  exact List.mem_append_left _ hinc

theorem find_similar_threshold_mono_witness :
    (⟨1, some [2]⟩ : Incident) ∈ find_similar_incidents (fun e => e.headD 0)
      [⟨1, some [2]⟩, ⟨2, some [1]⟩, ⟨3, none⟩] 9 (some (1/2)) 5 := by
  apply find_similar_threshold_mono (fun e => e.headD 0)
    [⟨1, some [2]⟩, ⟨2, some [1]⟩, ⟨3, none⟩] 9 5 (1/2) (3/2) (by norm_num)
  rw [find_similar_incidents]
  simp only [Option.getD_some]
  rw [qualifying_example_eval]
  simp [sortDesc, insertDesc]


/-! ### Lemmas on first occurrences -/

theorem mem_firstOccs {a : String} : ∀ {l : List String}, a ∈ firstOccs l ↔ a ∈ l := by
  intro l
  induction l using firstOccs.induct with
  | case1 => rw [firstOccs]
  | case2 w t ih =>
    rw [firstOccs]
    by_cases haw : a = w
    · subst haw
      simp
    · simp only [List.mem_cons, ih, List.mem_filter, decide_eq_true_eq]
      constructor
      · rintro (h | ⟨h, -⟩)
        · exact Or.inl h
        · exact Or.inr h
      · rintro (h | h)
        · exact Or.inl h
        · exact Or.inr ⟨h, haw⟩

theorem firstIdx_cons (w x : String) (t : List String) :
    firstIdx w (x :: t) = if x = w then 0 else firstIdx w t + 1 := rfl

/-- The order of first occurrences is preserved by filtering, since a
filter keeps or drops all occurrences of a value together. -/
theorem firstIdx_filter_lt {p : String → Bool} :
    ∀ (t : List String) (a b : String), a ∈ t.filter p → b ∈ t.filter p →
      firstIdx a (t.filter p) < firstIdx b (t.filter p) →
      firstIdx a t < firstIdx b t := by
  intro t
  induction t with
  | nil =>
    intro a b ha
    simp at ha
  | cons c t ih =>
    intro a b ha hb hlt
    by_cases hpc : p c = true
    · rw [List.filter_cons_of_pos hpc] at ha hb hlt
      by_cases hca : c = a
      · have hcb : ¬ c = b := by
          intro hcb
          rw [firstIdx_cons, if_pos hca, firstIdx_cons, if_pos hcb] at hlt
          exact absurd hlt (by omega)
        rw [firstIdx_cons, if_pos hca, firstIdx_cons, if_neg hcb]
        omega
      · by_cases hcb : c = b
        · rw [firstIdx_cons, firstIdx_cons, if_neg hca, if_pos hcb] at hlt
          exact absurd hlt (by omega)
        · rw [firstIdx_cons, if_neg hca, firstIdx_cons, if_neg hcb] at hlt
          rw [firstIdx_cons, if_neg hca, firstIdx_cons, if_neg hcb]
          have ha' : a ∈ t.filter p := by
            rcases List.mem_cons.mp ha with h | h
            · exact absurd h.symm hca
            · exact h
          have hb' : b ∈ t.filter p := by
            rcases List.mem_cons.mp hb with h | h
            · exact absurd h.symm hcb
            · exact h
          have := ih a b ha' hb' (by omega)
          omega
    · have hpc' : p c = false := by
        cases h : p c
        · rfl
        · exact absurd h hpc
      rw [List.filter_cons_of_neg (by rw [hpc']; exact Bool.false_ne_true)] at ha hb hlt
      have hca : ¬ c = a := by
        intro hca
        have := (List.mem_filter.mp ha).2
        rw [← hca, hpc'] at this
        cases this
      have hcb : ¬ c = b := by
        intro hcb
        have := (List.mem_filter.mp hb).2
        rw [← hcb, hpc'] at this
        cases this
      rw [firstIdx_cons, if_neg hca, firstIdx_cons, if_neg hcb]
      have := ih a b ha hb hlt
      omega

/-- The distinct words kept by `firstOccs` are listed in strictly
increasing order of first occurrence. -/
theorem firstOccs_pairwise : ∀ (l : List String),
    (firstOccs l).Pairwise (fun a b => firstIdx a l < firstIdx b l) := by
  intro l
  induction l using firstOccs.induct with
  | case1 =>
    rw [firstOccs]
    exact List.Pairwise.nil
  | case2 w t ih =>
    rw [firstOccs]
    refine List.Pairwise.cons ?_ ?_
    · intro b hb
      have hb' := mem_firstOccs.mp hb
      have hbw : ¬ (b = w) := by
        have := (List.mem_filter.mp hb').2
        rw [decide_eq_true_eq] at this
        exact this
      rw [firstIdx_cons, if_pos rfl, firstIdx_cons, if_neg (fun h => hbw h.symm)]
      omega
    · refine List.Pairwise.imp_of_mem ?_ ih
      intro a b ha hb hr
      have ha' := mem_firstOccs.mp ha
      have hb' := mem_firstOccs.mp hb
      have haw : ¬ (w = a) := by
        have := (List.mem_filter.mp ha').2
        rw [decide_eq_true_eq] at this
        exact fun h => this h.symm
      have hbw : ¬ (w = b) := by
        have := (List.mem_filter.mp hb').2
        rw [decide_eq_true_eq] at this
        exact fun h => this h.symm
      rw [firstIdx_cons, if_neg haw, firstIdx_cons, if_neg hbw]
      have := firstIdx_filter_lt t a b ha' hb' hr
      omega


/-! ### The counting dict `word_freq` -/

theorem bump_cons (x : String) (n : ℕ) (t : List (String × ℕ)) (w : String) :
    bump ((x, n) :: t) w = if x = w then (x, n + 1) :: t else (x, n) :: bump t w := rfl

/-- Counting a fresh word appends it at the end with count 1. -/
theorem bump_of_not_mem : ∀ {acc : List (String × ℕ)} {w : String},
    w ∉ acc.map Prod.fst → bump acc w = acc ++ [(w, 1)] := by
  intro acc
  induction acc with
  | nil =>
    intro w _
    rfl
  | cons q t ih =>
    intro w hw
    obtain ⟨x, n⟩ := q
    rw [List.map_cons] at hw
    have hxw : ¬ (x = w) := by
      intro h
      exact hw (by rw [← h]; exact List.mem_cons_self _ _)
    rw [bump_cons, if_neg hxw,
      ih (fun h => hw (List.mem_cons_of_mem _ h)), List.cons_append]

/-- Counting a known word bumps its (unique) entry in place. -/
theorem bump_of_mem : ∀ {acc : List (String × ℕ)} {w : String},
    (acc.map Prod.fst).Nodup → w ∈ acc.map Prod.fst →
    bump acc w = acc.map (fun p => if p.1 = w then (p.1, p.2 + 1) else p) := by
  intro acc
  induction acc with
  | nil =>
    intro w _ hw
    simp at hw
  | cons q t ih =>
    intro w hnd hw
    obtain ⟨x, n⟩ := q
    rw [List.map_cons] at hnd hw
    by_cases hxw : x = w
    · subst hxw
      rw [bump_cons, if_pos rfl, List.map_cons]
      have hx : x ∉ t.map Prod.fst := (List.nodup_cons.mp hnd).1
      have ht : t.map (fun p => if p.1 = x then (p.1, p.2 + 1) else p) = t := by
        have hstep : t.map (fun p => if p.1 = x then (p.1, p.2 + 1) else p) = t.map id := by
          apply List.map_congr_left
          intro p hp
          have hpx : ¬ (p.1 = x) := by
            intro h
            exact hx (by rw [← h]; exact List.mem_map_of_mem Prod.fst hp)
          rw [if_neg hpx]
          rfl
        rw [hstep, List.map_id]
      rw [ht]
      dsimp only
      rw [if_pos rfl]
    · have hw' : w ∈ t.map Prod.fst := by
        rcases List.mem_cons.mp hw with h | h
        · exact absurd h.symm hxw
        · exact h
      rw [bump_cons, if_neg hxw, List.map_cons]
      dsimp only
      rw [if_neg hxw, ih (List.nodup_cons.mp hnd).2 hw']

/-- The counting loop, fully characterized: existing entries gain the
count of their word in the remaining input, and the fresh words follow in
first-occurrence order carrying their counts. -/
theorem foldl_bump_eq : ∀ (l : List String) (acc : List (String × ℕ)),
    (acc.map Prod.fst).Nodup →
    l.foldl bump acc =
      acc.map (fun p => (p.1, p.2 + l.count p.1))
        ++ (firstOccs (l.filter (fun w => decide (w ∉ acc.map Prod.fst)))).map
            (fun w => (w, l.count w)) := by
  intro l
  induction l with
  | nil =>
    intro acc hnd
    rw [List.foldl_nil, List.filter_nil]
    rw [show firstOccs [] = [] from by rw [firstOccs], List.map_nil, List.append_nil]
    have hstep : acc.map (fun p => (p.1, p.2 + List.count p.1 [])) = acc.map id := by
      apply List.map_congr_left
      intro p _
      rw [List.count_nil, Nat.add_zero]
      rfl
    rw [hstep, List.map_id]
  | cons w t ih =>
    intro acc hnd
    rw [List.foldl_cons]
    by_cases hw : w ∈ acc.map Prod.fst
    · have hkeys : (bump acc w).map Prod.fst = acc.map Prod.fst := by
        rw [bump_of_mem hnd hw, List.map_map]
        apply List.map_congr_left
        intro p hp
        by_cases h : p.1 = w
        · simp [Function.comp, h]
        · simp [Function.comp, h]
      have hnd' : ((bump acc w).map Prod.fst).Nodup := by
        rw [hkeys]
        exact hnd
      rw [ih (bump acc w) hnd']
      congr 1
      · rw [bump_of_mem hnd hw, List.map_map]
        apply List.map_congr_left
        intro p hp
        by_cases h : p.1 = w
        · simp only [Function.comp_apply, if_pos h]
          show (p.1, p.2 + 1 + List.count p.1 t) = (p.1, p.2 + List.count p.1 (w :: t))
          rw [Prod.mk.injEq]
          refine ⟨rfl, ?_⟩
          rw [h, List.count_cons_self]
          omega
        · simp only [Function.comp_apply, if_neg h]
          show (p.1, p.2 + List.count p.1 t) = (p.1, p.2 + List.count p.1 (w :: t))
          rw [List.count_cons_of_ne h]
      · rw [hkeys]
        have hfil : (w :: t).filter (fun x => decide (x ∉ acc.map Prod.fst))
            = t.filter (fun x => decide (x ∉ acc.map Prod.fst)) := by
          apply List.filter_cons_of_neg
          simp [hw]
        rw [hfil]
        apply List.map_congr_left
        intro w' hw'
        have hmem := (List.mem_filter.mp (mem_firstOccs.mp hw')).2
        rw [decide_eq_true_eq] at hmem
        have hne : w' ≠ w := fun h => hmem (by rw [h]; exact hw)
        rw [List.count_cons_of_ne hne]
    · have hkeys0 : (acc ++ [(w, 1)]).map Prod.fst = acc.map Prod.fst ++ [w] := by
        rw [List.map_append]
        rfl
      have hnd' : ((bump acc w).map Prod.fst).Nodup := by
        rw [bump_of_not_mem hw, hkeys0]
        simp [List.nodup_append, hnd, hw]
      rw [ih (bump acc w) hnd', bump_of_not_mem hw, List.map_append]
      have hfil : (w :: t).filter (fun x => decide (x ∉ acc.map Prod.fst))
          = w :: t.filter (fun x => decide (x ∉ acc.map Prod.fst)) := by
        apply List.filter_cons_of_pos
        simp [hw]
      rw [hfil]
      rw [show firstOccs (w :: t.filter (fun x => decide (x ∉ acc.map Prod.fst)))
          = w :: firstOccs ((t.filter (fun x => decide (x ∉ acc.map Prod.fst))).filter
              (fun x => decide (x ≠ w))) from by rw [firstOccs]]
      simp only [List.map_cons, List.map_nil, List.nil_append, List.append_assoc,
        List.singleton_append]
      congr 1
      · apply List.map_congr_left
        intro p hp
        have hpk : p.1 ∈ acc.map Prod.fst := List.mem_map_of_mem Prod.fst hp
        have hne : p.1 ≠ w := fun h => hw (h ▸ hpk)
        rw [List.count_cons_of_ne hne]
      · congr 1
        · show (w, 1 + List.count w t) = (w, List.count w (w :: t))
          rw [Prod.mk.injEq, List.count_cons_self]
          exact ⟨rfl, by omega⟩
        · have hpred : t.filter (fun x => decide (x ∉ (acc ++ [(w, 1)]).map Prod.fst))
              = (t.filter (fun x => decide (x ∉ acc.map Prod.fst))).filter
                  (fun x => decide (x ≠ w)) := by
            rw [List.filter_filter]
            apply List.filter_congr
            intro x _
            rw [hkeys0]
            simp only [List.mem_append, List.mem_singleton, not_or]
            rw [show (decide (x ∉ acc.map Prod.fst ∧ ¬ x = w))
                = (decide (x ∉ acc.map Prod.fst) && decide (¬ x = w)) from by
              by_cases h1 : x ∈ acc.map Prod.fst <;> by_cases h2 : x = w <;>
                simp [h1, h2]]
            rw [Bool.and_comm]
          rw [hpred]
          apply List.map_congr_left
          intro w' hw'
          have hmem := List.mem_filter.mp (mem_firstOccs.mp hw')
          have hne : w' ≠ w := by
            have := hmem.2
            rw [decide_eq_true_eq] at this
            exact this
          rw [List.count_cons_of_ne hne]

theorem word_freq_eq (l : List String) :
    word_freq l = (firstOccs l).map (fun w => (w, l.count w)) := by
  rw [word_freq, foldl_bump_eq l [] (by simp)]
  simp only [List.map_nil, List.nil_append]
  congr 2
  simp


/-- Values of the counting dict: each entry carries its word's count. -/
theorem word_freq_val {l : List String} : ∀ p ∈ word_freq l, p.2 = l.count p.1 := by
  intro p hp
  rw [word_freq_eq] at hp
  rcases List.mem_map.mp hp with ⟨w, _, hw⟩
  rw [← hw]

/-- Keys of the counting dict come from the input. -/
theorem word_freq_mem_fst {l : List String} : ∀ p ∈ word_freq l, p.1 ∈ l := by
  intro p hp
  rw [word_freq_eq] at hp
  rcases List.mem_map.mp hp with ⟨w, hwm, hw⟩
  rw [← hw]
  exact mem_firstOccs.mp hwm

/-- The counting dict lists its entries in first-occurrence order. -/
theorem word_freq_pairwise (l : List String) :
    (word_freq l).Pairwise (fun p q => firstIdx p.1 l < firstIdx q.1 l) := by
  rw [word_freq_eq]
  apply (List.pairwise_map).mpr
  exact firstOccs_pairwise l

/-! ### Claim theorems: keyword extraction -/

/-- C10: `extract_keywords` returns at most `top_n` tokens, each purely
alphabetic, longer than 2 characters and not a stopword, ordered by
strictly descending frequency with ties broken by order of first
occurrence among the kept tokens; empty input yields an empty sequence. -/
theorem extract_keywords_spec (tokens stop : List String) (top_n : ℕ) :
    (extract_keywords tokens stop top_n).length ≤ top_n
    ∧ (∀ w ∈ extract_keywords tokens stop top_n,
        str_isalpha w = true ∧ w ∉ stop ∧ 2 < w.length)
    ∧ (extract_keywords tokens stop top_n).Pairwise
        (fun a b =>
          (tokens.filter (keepToken stop)).count b
              < (tokens.filter (keepToken stop)).count a
            ∨ ((tokens.filter (keepToken stop)).count a
                  = (tokens.filter (keepToken stop)).count b
               ∧ firstIdx a (tokens.filter (keepToken stop))
                  < firstIdx b (tokens.filter (keepToken stop))))
    ∧ extract_keywords [] stop top_n = [] := by
  refine ⟨?_, ?_, ?_, by simp [extract_keywords, word_freq]⟩
  · rw [extract_keywords]
    rw [List.length_map]
    exact List.length_take_le _ _
  · intro w hw
    rw [extract_keywords] at hw
    rcases List.mem_map.mp hw with ⟨p, hp, hpw⟩
    have hwf : p ∈ word_freq (tokens.filter (keepToken stop)) :=
      mem_sortDesc.mp (List.take_subset _ _ hp)
    have hkept : p.1 ∈ tokens.filter (keepToken stop) := word_freq_mem_fst _ hwf
    have hkeep := (List.mem_filter.mp hkept).2
    rw [keepToken, Bool.and_eq_true, Bool.and_eq_true] at hkeep
    obtain ⟨⟨h1, h2⟩, h3⟩ := hkeep
    rw [← hpw]
    exact ⟨h1, of_decide_eq_true h2, of_decide_eq_true h3⟩
  · rw [extract_keywords]
    apply (List.pairwise_map).mpr
    have hs := sortDesc_pairwise (k := Prod.snd)
      (word_freq_pairwise (tokens.filter (keepToken stop)))
    have ht := List.Pairwise.sublist (List.take_sublist top_n _) hs
    refine List.Pairwise.imp_of_mem ?_ ht
    intro p q hp hq hr
    have hpw : p ∈ word_freq (tokens.filter (keepToken stop)) :=
      mem_sortDesc.mp (List.take_subset _ _ hp)
    have hqw : q ∈ word_freq (tokens.filter (keepToken stop)) :=
      mem_sortDesc.mp (List.take_subset _ _ hq)
    have hpv := word_freq_val p hpw
    have hqv := word_freq_val q hqw
    rcases hr with h | h
    · left
      rw [← hpv, ← hqv]
      exact h
    · right
      refine ⟨?_, h.2⟩
      rw [← hpv, ← hqv]
      exact h.1

theorem extract_keywords_spec_witness :
    (extract_keywords ["plastic", "the", "bottle", "plastic"] ["the"] 5).length ≤ 5
    ∧ extract_keywords [] ["the"] 5 = []
    ∧ extract_keywords ["plastic", "the", "bottle", "plastic"] ["the"] 5
        = ["plastic", "bottle"] := by
  refine ⟨(extract_keywords_spec ["plastic", "the", "bottle", "plastic"] ["the"] 5).1,
    (extract_keywords_spec ["plastic", "the", "bottle", "plastic"] ["the"] 5).2.2.2, ?_⟩
  decide

end WasteReport
